import Mathlib

/-!
Shallow embedding of the Garage block manager, version table and web-server
routing helpers, together with proofs of the specified properties.

Modelling conventions:
* a content hash is abstracted as a natural number (`Hash`); the concrete
  hash function is a parameter wherever the code recomputes hashes;
* block payloads are byte lists (`Data`);
* the sled trees are modelled as functions from keys to optional stored
  values; `block_local_rc` stores decoded u64 values (always below `2 ^ 64`);
* u64 arithmetic wraps, so the increment in the merge operator is taken
  modulo `2 ^ 64`;
* fallible operations return `Except`; the `unreachable` arm of the merge
  operator is modelled by an outer `Option` (`none` = panic).
-/

namespace Garage

abbrev Hash := Nat

abbrev Data := List Nat

/-- Error type covering the cases the modelled code paths can produce. -/
inductive Err where
  | io : Err
  | corruptData (h : Hash) : Err
  | message : Err
  deriving DecidableEq, Repr

/-- RPC message taxonomy (the reply shapes the modelled code inspects). -/
inductive Msg where
  | ok : Msg
  | putBlock (h : Hash) (d : Data) : Msg
  | needBlockReply (b : Bool) : Msg
  deriving DecidableEq, Repr

/-- Local state of one block manager: the block directory (disk), the
decoded `block_local_rc` tree and the `block_local_resync_queue` tree
(entries are pairs of a due time in milliseconds and a hash). -/
structure BlockState where
  disk : Hash → Option Data
  rc : Hash → Option Nat
  queue : List (Nat × Hash)

/-- Pointwise update of a tree modelled as a function. -/
def updateFn {α : Type} (f : Hash → Option α) (h : Hash) (v : Option α) :
    Hash → Option α :=
  fun h2 => if h2 = h then v else f h2

/-- Decoded reference count of a hash; an absent key reads as 0. -/
def rcVal (st : BlockState) (h : Hash) : Nat :=
  (st.rc h).getD 0

/-- Merge operator of the `block_local_rc` tree (`rc_merge` in `block.rs`).
The old value is the decoded u64 (absent reads as 0); the operand is the
single byte of the merge argument.  Byte 0 decrements saturating at zero,
byte 1 increments (u64 addition, hence modulo `2 ^ 64`), any other byte is
the `unreachable` arm, modelled as the outer `none`.  A zero result removes
the entry (inner `none`). -/
def rc_merge (old : Option Nat) (op : Nat) : Option (Option Nat) :=
  let o := old.getD 0
  match op with
  | 0 =>
    let n := if o > 0 then o - 1 else 0
    some (if n = 0 then none else some n)
  | 1 =>
    let n := (o + 1) % 2 ^ 64
    some (if n = 0 then none else some n)
  | _ => none

/-- Insert a resync-queue entry due `delayMillis` after `now`
(`put_to_resync` in `block.rs`). -/
def put_to_resync (now : Nat) (st : BlockState) (h : Hash) (delayMillis : Nat) :
    BlockState :=
  { st with queue := st.queue ++ [(now + delayMillis, h)] }

/-- Reply to a peer presence probe (`need_block` in `block.rs`): the block
is needed iff the stored RC decodes above zero and the file is absent. -/
def need_block (st : BlockState) (h : Hash) : Bool :=
  let needed := ((st.rc h).map (fun x => decide (x > 0))).getD false
  if needed then !(st.disk h).isSome else false

/-- Modelled `block_incref`: merge operand byte 1 into the RC tree; if the
previous value was absent or zero, schedule a resync after twice the block
read/write timeout `bt`.  Operand 1 never reaches the `unreachable` arm of
`rc_merge`, so unwrapping the outer option with `getD` is exact. -/
def block_incref (bt now : Nat) (st : BlockState) (h : Hash) : BlockState :=
  let old := st.rc h
  let newv := (rc_merge old 1).getD none
  let st1 := { st with rc := updateFn st.rc h newv }
  if (old.map (fun x => decide (x = 0))).getD true then
    put_to_resync now st1 h (2 * bt)
  else st1

/-- Modelled `block_decref`: merge operand byte 0 into the RC tree; if the
new value is absent or zero, schedule a resync after the block read/write
timeout `bt`. -/
def block_decref (bt now : Nat) (st : BlockState) (h : Hash) : BlockState :=
  let newv := (rc_merge (st.rc h) 0).getD none
  let st1 := { st with rc := updateFn st.rc h newv }
  if (newv.map (fun x => decide (x = 0))).getD true then
    put_to_resync now st1 h bt
  else st1

/-- Byte value of the ASCII dot separator. -/
def dotByte : Nat := 46

/-- Modelled `host_to_bucket` from `web_server.rs`, over hosts and root
domains as byte lists.  If the root domain is at least as long as the host,
or is not a suffix of it, the host is returned unchanged; otherwise the
suffix is cut off, and one extra byte (the separator dot) when the root
domain does not itself start with a dot. -/
def host_to_bucket (host root : List Nat) : List Nat :=
  if root.length ≥ host.length || !(root.isSuffixOf host) then host
  else
    let lenDiff := host.length - root.length
    let missingStartingDot := root.head? != some dotByte
    let cursor := if missingStartingDot then lenDiff - 1 else lenDiff
    host.take cursor

/-- The bucket-extraction rule exactly as claim C8 words it (for comparison
with `host_to_bucket`): return the host unchanged only when the host does
not end with the root domain; otherwise strip the suffix and, when the root
domain does not start with a dot, one extra trailing-side byte. -/
def host_to_bucket_claim (host root : List Nat) : List Nat :=
  if !(root.isSuffixOf host) then host
  else
    let stripped := host.take (host.length - root.length)
    if root.head? != some dotByte then stripped.dropLast else stripped

/-- Byte list of the string "garage.tld". -/
def gtldBytes : List Nat :=
  [103, 97, 114, 97, 103, 101, 46, 116, 108, 100]

/-- Modelled `read_block`: open the file (absent file gives the underlying
I/O error plus an immediate resync entry), re-hash the content, and on a
mismatch delete the file, enqueue an immediate resync and return
`corruptData`; otherwise answer with a `putBlock` message. -/
def read_block (hashFn : Data → Hash) (now : Nat) (st : BlockState) (h : Hash) :
    Except Err Msg × BlockState :=
  match st.disk h with
  | none => (.error .io, put_to_resync now st h 0)
  | some d =>
    if hashFn d ≠ h then
      (.error (.corruptData h),
        put_to_resync now { st with disk := updateFn st.disk h none } h 0)
    else
      (.ok (.putBlock h d), st)

/-- Modelled `write_block`: if the file already exists return Ok without
rewriting, otherwise create it with the given bytes. -/
def write_block (st : BlockState) (h : Hash) (d : Data) :
    Except Err Msg × BlockState :=
  if (st.disk h).isSome then (.ok .ok, st)
  else (.ok .ok, { st with disk := updateFn st.disk h (some d) })

/-- Modelled `rpc_get_block` over the list of peer replies in arrival
order: the first reply that is a `putBlock` whose bytes re-hash to the
requested hash wins; if the stream is exhausted an error is returned. -/
def rpc_get_block (hashFn : Data → Hash) (h : Hash) :
    List (Except Unit Msg) → Except Err Data
  | [] => .error .message
  | r :: rest =>
    match r with
    | .ok (.putBlock _ d) =>
      if hashFn d = h then .ok d else rpc_get_block hashFn h rest
    | _ => rpc_get_block hashFn h rest

/-- Does a peer reply satisfy the verification of `rpc_get_block`, i.e. is
it a `putBlock` whose bytes hash to `h`? -/
def validGetReply (hashFn : Data → Hash) (h : Hash) (r : Except Unit Msg) :
    Bool :=
  match r with
  | .ok (.putBlock _ d) => hashFn d == h
  | _ => false

/-- Observable events of one `resync_iter` pass, in program order. -/
inductive Ev where
  | put (n : Nat) : Ev
  | removeFile : Ev
  | removeQueue : Ev
  | fetchWrite : Ev
  deriving DecidableEq, Repr

/-- Environment of one `resync_iter` pass: the replication factor, whether
the cluster-wide `block_ref_table` still holds a live reference, the
replica set returned by the ring walk, the `NeedBlockQuery` replies (zipped
with the replica set), the replies to the `PutBlock` push, and the replies
arriving for `rpc_get_block`. -/
structure RpcEnv where
  RF : Nat
  activeRefs : Bool
  who : List Nat
  needResps : List (Except Unit Msg)
  putResps : List (Except Err Msg)
  getResps : List (Except Unit Msg)

/-- Peers whose `NeedBlockQuery` reply was `NeedBlockReply(true)`. -/
def needNodes (env : RpcEnv) : List Nat :=
  (env.who.zip env.needResps).filterMap fun p =>
    match p.2 with
    | .ok (.needBlockReply true) => some p.1
    | _ => none

/-- Number of RPCs that did not return a well-formed reply. -/
def errCount (rs : List (Except Unit Msg)) : Nat :=
  rs.countP fun r => match r with | .error _ => true | _ => false

/-- Is a `PutBlock` push reply an error? -/
def isErrResp : Except Err Msg → Bool :=
  fun r => match r with | .error _ => true | _ => false

/-- Deletion protocol of `resync_iter`, entered with the file present, the
local RC zero and a live `BlockRef` still in the cluster table: count the
`NeedBlockQuery` outcomes; too many malformed replies abort with a
retriable error before anything is touched; otherwise, when some peers
answered true, read the block (a corrupt file aborts here) and push it to
all of them, checking each reply; only after all of that the file is
unlinked and the queue key dropped. -/
def deletion_step (hashFn : Data → Hash) (now : Nat) (env : RpcEnv)
    (st : BlockState) (h : Hash) : Except Err Unit × BlockState × List Ev :=
  let nn := needNodes env
  let errors := errCount env.needResps
  if errors > (env.RF - 1) / 2 then (.error .message, st, [])
  else
    let sendStep : Except Err Unit × BlockState × List Ev :=
      if nn.length > 0 then
        match read_block hashFn now st h with
        | (.error e, st1) => (.error e, st1, [])
        | (.ok _, st1) =>
          match env.putResps.find? isErrResp with
          | some (.error e) => (.error e, st1, nn.map Ev.put)
          | _ => (.ok (), st1, nn.map Ev.put)
      else (.ok (), st, [])
    match sendStep with
    | (.error e, st1, evs) => (.error e, st1, evs)
    | (.ok _, st1, evs) =>
      (.ok (), { st1 with disk := updateFn st1.disk h none },
        evs ++ [.removeFile, .removeQueue])

/-- Modelled `resync_iter`, returning the result, the new local state and
the trace of observable events.  With the file present and the local RC
zero: when a live `BlockRef` still exists, run the deletion protocol,
otherwise unlink the file directly.  With the file absent and the RC
positive: fetch the block from peers and write it locally. -/
def resync_iter (hashFn : Data → Hash) (now : Nat) (env : RpcEnv)
    (st : BlockState) (h : Hash) : Except Err Unit × BlockState × List Ev :=
  let ex := (st.disk h).isSome
  let needed := ((st.rc h).map (fun x => decide (x > 0))).getD false
  if ex && !needed then
    if env.activeRefs then
      deletion_step hashFn now env st h
    else
      (.ok (), { st with disk := updateFn st.disk h none },
        [.removeFile, .removeQueue])
  else if needed && !ex then
    match rpc_get_block hashFn h env.getResps with
    | .error e => (.error e, st, [])
    | .ok d => (.ok (), (write_block st h d).2, [.fetchWrite])
  else
    (.ok (), st, [])

/-- One block of a version: its byte offset and content hash
(`VersionBlock` in `version_table.rs`). -/
structure VersionBlock where
  offset : Nat
  hash : Hash
  deriving DecidableEq, Repr

/-- A `Version` entry: uuid (primary key), deletion flag, blocks ordered
by offset, and the bucket/key back link. -/
structure Version where
  uuid : Hash
  deleted : Bool
  blocks : List VersionBlock
  bucket : String
  key : String
  deriving DecidableEq, Repr

/-- Insertion of a block into an offset-sorted block list, keeping the
existing entry when the offset is already present.  On sorted input this
is exactly the `binary_search_by` plus `insert` of the source. -/
def insertVB (l : List VersionBlock) (b : VersionBlock) : List VersionBlock :=
  match l with
  | [] => [b]
  | x :: xs =>
    if b.offset < x.offset then b :: x :: xs
    else if b.offset = x.offset then x :: xs
    else x :: insertVB xs b

/-- Modelled `Version::merge`: a deleted `other` makes `self` a tombstone
with no blocks; otherwise, if `self` is not deleted, the blocks of `other`
are inserted one by one (existing offsets win); a deleted `self` ignores a
live `other`. -/
def Version.merge (self other : Version) : Version :=
  if other.deleted then { self with deleted := true, blocks := [] }
  else if self.deleted then self
  else { self with blocks := other.blocks.foldl insertVB self.blocks }

/-- A `BlockRef` row: the edge from a block hash to a version uuid. -/
structure BlockRef where
  block : Hash
  version : Hash
  deleted : Bool
  deriving DecidableEq, Repr

/-- Modelled `VersionTable::updated` hook: the list of `BlockRef` rows it
inserts into the block-reference table (an empty list means the table is
left unchanged). -/
def VersionTable.updated (old new : Option Version) : List BlockRef :=
  match old, new with
  | some oldV, some newV =>
    if newV.deleted && !oldV.deleted then
      oldV.blocks.map fun vb =>
        { block := vb.hash, version := oldV.uuid, deleted := true }
    else []
  | _, _ => []

/-- Strict ordering of a block list by offset (the source invariant kept
by `add_block` and `merge`). -/
def sortedVB (l : List VersionBlock) : Prop :=
  l.Pairwise fun a b => a.offset < b.offset

/-- Hash found at a given offset, if any (first match wins). -/
def lookupVB (l : List VersionBlock) (o : Nat) : Option Hash :=
  (l.find? fun x => x.offset == o).map fun x => x.hash

/-- Left-biased choice on optional hashes. -/
def orO (a b : Option Hash) : Option Hash :=
  match a with
  | some v => some v
  | none => b

/-- A structurally valid version: a tombstone carries no blocks. -/
def tombOk (v : Version) : Prop :=
  v.deleted = true → v.blocks = []

/-- Block state with empty trees and no files, used as a concrete input. -/
def emptyState : BlockState where
  disk := fun _ => none
  rc := fun _ => none
  queue := []

/-- Block state whose RC for hash 0 is the largest u64 value. -/
def maxRcState : BlockState where
  disk := fun _ => none
  rc := fun h => if h = 0 then some (2 ^ 64 - 1) else none
  queue := []

/-- Block state holding an empty file for hash 0, used as a concrete
input for the corruption path. -/
def corruptState : BlockState where
  disk := fun h => if h = 0 then some [] else none
  rc := fun _ => none
  queue := []

/-- A constant hash function that maps every payload to 1, so that hash 0
never verifies. -/
def constHash1 : Data → Hash := fun _ => 1

/-- Concrete live version with one block, used as a concrete input. -/
def vLive : Version where
  uuid := 0
  deleted := false
  blocks := [{ offset := 0, hash := 5 }]
  bucket := "b"
  key := "k"

/-- Concrete tombstone of the same version. -/
def vTomb : Version where
  uuid := 0
  deleted := true
  blocks := []
  bucket := "b"
  key := "k"

/-- Version with uuid 0 and hash 1 at offset 0, used as a concrete input. -/
def vA : Version where
  uuid := 0
  deleted := false
  blocks := [{ offset := 0, hash := 1 }]
  bucket := "b"
  key := "k"

/-- Version with the same uuid but hash 2 at offset 0. -/
def vB : Version where
  uuid := 0
  deleted := false
  blocks := [{ offset := 0, hash := 2 }]
  bucket := "b"
  key := "k"

/-- RPC environment with replication factor 3 in which two of the three
`NeedBlockQuery` probes fail, used as a concrete input. -/
def abortEnv : RpcEnv where
  RF := 3
  activeRefs := true
  who := [1, 2, 3]
  needResps := [.error (), .error (), .ok (.needBlockReply false)]
  putResps := []
  getResps := []

theorem updateFn_same {α : Type} (f : Hash → Option α) (h : Hash)
    (v : Option α) : updateFn f h v h = v := by
  simp [updateFn]

theorem rc_merge_one (old : Option Nat) (hlt : old.getD 0 + 1 < 2 ^ 64) :
    rc_merge old 1 = some (some (old.getD 0 + 1)) := by
  simp only [rc_merge, Nat.mod_eq_of_lt hlt]
  simp

theorem rc_merge_zero (old : Option Nat) :
    rc_merge old 0 =
      some (if old.getD 0 - 1 = 0 then none else some (old.getD 0 - 1)) := by
  have hsub : (if old.getD 0 > 0 then old.getD 0 - 1 else 0) = old.getD 0 - 1 := by
    split
    · rfl
    · omega
  simp only [rc_merge, hsub]

theorem block_incref_rc (bt now : Nat) (st : BlockState) (h : Hash) :
    (block_incref bt now st h).rc =
      updateFn st.rc h ((rc_merge (st.rc h) 1).getD none) := by
  simp only [block_incref, put_to_resync]
  split <;> rfl

theorem block_decref_rc (bt now : Nat) (st : BlockState) (h : Hash) :
    (block_decref bt now st h).rc =
      updateFn st.rc h ((rc_merge (st.rc h) 0).getD none) := by
  simp only [block_decref, put_to_resync]
  split <;> rfl

/-- C3 (amended): for any prior RC whose successor still fits in a u64,
operand byte 1 stores RC + 1; for every prior RC, operand byte 0 stores
RC − 1 saturating at zero, with no stored entry exactly when that result
is 0; an absent prior key reads as RC 0. -/
theorem rc_merge_inc_dec (old : Option Nat) :
    (old.getD 0 + 1 < 2 ^ 64 → rc_merge old 1 = some (some (old.getD 0 + 1)))
    ∧ rc_merge old 0 =
      some (if old.getD 0 - 1 = 0 then none else some (old.getD 0 - 1)) :=
  ⟨fun hlt => rc_merge_one old hlt, rc_merge_zero old⟩

/-- Witness for C3 at prior RC 5: increment stores 6, decrement stores 4. -/
theorem rc_merge_inc_dec_witness :
    rc_merge (some 5) 1 = some (some 6) ∧ rc_merge (some 5) 0 = some (some 4) := by
  have h := rc_merge_inc_dec (some 5)
  exact ⟨by simpa using h.1 (by decide), by simpa using h.2⟩

/-- Counterexample to C3 as stated: at the prior RC value `2 ^ 64 − 1`,
operand byte 1 wraps the u64 and removes the entry (stored RC 0) instead
of mapping to RC + 1, which is nonzero. -/
theorem rc_merge_overflow_cex :
    rc_merge (some (2 ^ 64 - 1)) 1 = some none
    ∧ (some (2 ^ 64 - 1) : Option Nat).getD 0 + 1 ≠ 0 := by
  constructor
  · decide
  · decide

/-- C4: `need_block` answers true exactly when the decoded RC is positive
and the block file is absent; it answers false whenever the RC reads 0
(stored 0 or absent key), regardless of the file. -/
theorem need_block_iff (st : BlockState) (h : Hash) :
    (need_block st h = true ↔ 0 < rcVal st h ∧ st.disk h = none)
    ∧ (rcVal st h = 0 → need_block st h = false) := by
  constructor
  · unfold need_block rcVal
    rcases hrc : st.rc h with _ | v <;>
      rcases hd : st.disk h with _ | d <;>
        simp [hrc, hd]
  · intro h0
    unfold need_block
    unfold rcVal at h0
    rcases hrc : st.rc h with _ | v
    · simp
    · rw [hrc] at h0
      simp only [Option.getD_some] at h0
      simp [h0]

/-- Witness for C4 at the empty state: RC reads 0, so the answer is false. -/
theorem need_block_iff_witness : need_block emptyState 0 = false :=
  (need_block_iff emptyState 0).2 rfl

/-- C7 (amended): as long as the starting RC's successor fits in a u64, an
incref followed by a decref of the same hash restores the decoded RC to
its prior value (an absent key reading as 0). -/
theorem incref_decref_restores (bt now now2 : Nat) (st : BlockState)
    (h : Hash) (hlt : rcVal st h + 1 < 2 ^ 64) :
    rcVal (block_decref bt now2 (block_incref bt now st h) h) h = rcVal st h := by
  have hinc : (block_incref bt now st h).rc h = some (rcVal st h + 1) := by
    rw [block_incref_rc, updateFn_same, rc_merge_one (st.rc h) hlt]
    rfl
  have hdec : (block_decref bt now2 (block_incref bt now st h) h).rc h
      = if rcVal st h = 0 then none else some (rcVal st h) := by
    rw [block_decref_rc, updateFn_same, hinc, rc_merge_zero]
    simp
  unfold rcVal
  rw [hdec]
  split
  · rename_i hz
    unfold rcVal at hz
    simp [hz]
  · rfl

/-- Witness for C7 at starting RC 5 for hash 0. -/
theorem incref_decref_restores_witness :
    rcVal (block_decref 7 11 (block_incref 7 3 emptyState 0) 0) 0
      = rcVal emptyState 0 :=
  incref_decref_restores 7 3 11 emptyState 0 (by decide)

/-- Counterexample to C7 as stated: starting from the stored RC
`2 ^ 64 − 1`, the incref wraps the u64 and removes the entry, and the
following decref leaves it absent, so the pair does not restore the prior
value. -/
theorem incref_decref_cex :
    rcVal maxRcState 0 = 2 ^ 64 - 1
    ∧ rcVal (block_decref 1 0 (block_incref 1 0 maxRcState 0) 0) 0 = 0
    ∧ (0 : Nat) ≠ 2 ^ 64 - 1 := by
  refine ⟨by decide, ?_, by decide⟩
  decide

/-- C10: whenever the configured root domain is at least as long as the
host — in particular when the host equals the root domain, which does end
with it — `host_to_bucket` returns the host unchanged, hence never the
empty string for a nonempty host. -/
theorem host_to_bucket_root_not_shorter (host root : List Nat)
    (hlen : host.length ≤ root.length) :
    host_to_bucket host root = host
    ∧ (host = root → host ≠ [] → host_to_bucket host root ≠ [])
    ∧ (host = root → root.isSuffixOf host = true) := by
  have h1 : host_to_bucket host root = host := by
    unfold host_to_bucket
    rw [if_pos]
    simp [hlen]
  refine ⟨h1, fun _ hne => by rw [h1]; exact hne, fun he => ?_⟩
  subst he
  simp [List.isSuffixOf_iff_suffix]

/-- Witness for C10 at host = root = "garage.tld". -/
theorem host_to_bucket_root_not_shorter_witness :
    host_to_bucket gtldBytes gtldBytes = gtldBytes
    ∧ (gtldBytes = gtldBytes → gtldBytes ≠ [] →
        host_to_bucket gtldBytes gtldBytes ≠ [])
    ∧ (gtldBytes = gtldBytes → List.isSuffixOf gtldBytes gtldBytes = true) :=
  host_to_bucket_root_not_shorter gtldBytes gtldBytes (by decide)

/-- C8 (amended): the host is returned unchanged when it does not end with
the root domain or when the root domain is at least as long as the host;
otherwise the result is the host with the root-domain suffix cut off, and
one extra trailing-side byte dropped when the root domain does not start
with a dot. -/
theorem host_to_bucket_spec (host root : List Nat) :
    (root.isSuffixOf host = false → host_to_bucket host root = host)
    ∧ (host.length ≤ root.length → host_to_bucket host root = host)
    ∧ (root.length < host.length → root.isSuffixOf host = true →
        host_to_bucket host root =
          (if root.head? != some dotByte then
            (host.take (host.length - root.length)).dropLast
          else host.take (host.length - root.length))
        ∧ host.take (host.length - root.length) ++ root = host) := by
  refine ⟨?_, ?_, ?_⟩
  · intro hsuf
    unfold host_to_bucket
    rw [if_pos]
    simp [hsuf]
  · intro hlen
    unfold host_to_bucket
    rw [if_pos]
    simp [hlen]
  · intro hlt hsuf
    obtain ⟨p, hp⟩ := List.isSuffixOf_iff_suffix.mp hsuf
    have hdiff : host.length - root.length = p.length := by
      subst hp
      simp
    have htake : host.take (host.length - root.length) = p := by
      rw [hdiff, ← hp]
      exact List.take_left _ _
    have hdlen : host.length - root.length ≤ host.length := Nat.sub_le _ _
    have hdrop : (host.take (host.length - root.length)).dropLast
        = host.take (host.length - root.length - 1) := by
      rw [List.dropLast_eq_take, List.length_take, List.take_take]
      congr 1
      omega
    constructor
    · unfold host_to_bucket
      rw [if_neg]
      · simp only []
        split
        · rw [hdrop]
        · rfl
      · simp [hsuf]
        omega
    · rw [htake, hp]

/-- Witness for C8 at the three spec examples and a non-matching host. -/
theorem host_to_bucket_spec_witness :
    host_to_bucket
        [106, 111, 104, 110, 46, 100, 111, 101, 46, 103, 97, 114, 97, 103,
          101, 46, 116, 108, 100] ([dotByte] ++ gtldBytes)
      = [106, 111, 104, 110, 46, 100, 111, 101] := by
  have h := (host_to_bucket_spec
    [106, 111, 104, 110, 46, 100, 111, 101, 46, 103, 97, 114, 97, 103, 101,
      46, 116, 108, 100] ([dotByte] ++ gtldBytes)).2.2 (by decide) (by decide)
  rw [h.1]
  decide

/-- Counterexample to C8 as stated: the host "garage.tld" ends with the
root domain "garage.tld", yet the code returns it unchanged while the
claimed rule would strip the suffix and a further byte, yielding the empty
string. -/
theorem host_to_bucket_cex :
    List.isSuffixOf gtldBytes gtldBytes = true
    ∧ host_to_bucket_claim gtldBytes gtldBytes = []
    ∧ host_to_bucket gtldBytes gtldBytes = gtldBytes
    ∧ gtldBytes ≠ [] := by
  refine ⟨by decide, by decide, by decide, by decide⟩

/-- C5: when the stored content does not re-hash to the requested hash,
`read_block` deletes the file, enqueues a resync entry due now (delay 0)
and returns `corruptData`; when the file is absent it enqueues a resync
entry due now and returns the underlying I/O error. -/
theorem read_block_error_paths (hashFn : Data → Hash) (now : Nat)
    (st : BlockState) (h : Hash) :
    (∀ d, st.disk h = some d → hashFn d ≠ h →
      read_block hashFn now st h =
        (.error (.corruptData h),
          { st with disk := updateFn st.disk h none,
                    queue := st.queue ++ [(now, h)] }))
    ∧ (st.disk h = none →
      read_block hashFn now st h =
        (.error .io, { st with queue := st.queue ++ [(now, h)] })) := by
  constructor
  · intro d hd hne
    unfold read_block put_to_resync
    rw [hd]
    simp [hne]
  · intro hd
    unfold read_block put_to_resync
    rw [hd]
    simp

/-- Witness for C5: a mismatching empty file for hash 0 is deleted,
queued at the current time 5, and reported corrupt. -/
theorem read_block_error_paths_witness :
    read_block constHash1 5 corruptState 0 =
      (.error (.corruptData 0),
        { corruptState with disk := updateFn corruptState.disk 0 none,
                            queue := corruptState.queue ++ [(5, 0)] }) :=
  (read_block_error_paths constHash1 5 corruptState 0).1 [] rfl (by decide)

theorem validGetReply_eq_true (hashFn : Data → Hash) (h : Hash)
    (r : Except Unit Msg) (hv : validGetReply hashFn h r = true) :
    ∃ h2 d, r = .ok (.putBlock h2 d) ∧ hashFn d = h := by
  cases r with
  | error e => simp [validGetReply] at hv
  | ok m =>
    cases m with
    | ok => simp [validGetReply] at hv
    | needBlockReply b => simp [validGetReply] at hv
    | putBlock h2 d =>
      refine ⟨h2, d, rfl, ?_⟩
      simpa [validGetReply] using hv

theorem rpc_get_block_eq_find (hashFn : Data → Hash) (h : Hash)
    (rs : List (Except Unit Msg)) :
    rpc_get_block hashFn h rs =
      (match rs.find? (validGetReply hashFn h) with
        | some (.ok (.putBlock _ d)) => .ok d
        | _ => .error .message) := by
  induction rs with
  | nil => rfl
  | cons r rest ih =>
    cases r with
    | error e =>
      simpa [rpc_get_block, List.find?, validGetReply] using ih
    | ok m =>
      cases m with
      | ok => simpa [rpc_get_block, List.find?, validGetReply] using ih
      | needBlockReply b =>
        simpa [rpc_get_block, List.find?, validGetReply] using ih
      | putBlock h2 d =>
        by_cases hv : hashFn d = h
        · simp [rpc_get_block, List.find?, validGetReply, hv]
        · have hb : (hashFn d == h) = false := by
            simpa using hv
          simpa [rpc_get_block, List.find?, validGetReply, hb, hv] using ih

/-- C6: `rpc_get_block` returns the data of the first reply in arrival
order that is a `putBlock` whose bytes hash to the requested hash, and
returns an error exactly when no reply satisfies that verification. -/
theorem rpc_get_block_first_valid (hashFn : Data → Hash) (h : Hash)
    (rs : List (Except Unit Msg)) :
    rpc_get_block hashFn h rs =
      (match rs.find? (validGetReply hashFn h) with
        | some (.ok (.putBlock _ d)) => .ok d
        | _ => .error .message)
    ∧ ((∃ e, rpc_get_block hashFn h rs = .error e) ↔
        ∀ r ∈ rs, validGetReply hashFn h r = false) := by
  refine ⟨rpc_get_block_eq_find hashFn h rs, ?_⟩
  rw [rpc_get_block_eq_find hashFn h rs]
  rcases hf : rs.find? (validGetReply hashFn h) with _ | r
  · have hall := List.find?_eq_none.mp hf
    simp only [List.find?_eq_none] at hf
    constructor
    · intro _ r hr
      simpa using hf r hr
    · intro _
      exact ⟨.message, rfl⟩
  · have hv := List.find?_some hf
    have hmem := List.mem_of_find?_eq_some hf
    obtain ⟨h2, d, rfl, hhash⟩ := validGetReply_eq_true hashFn h r hv
    constructor
    · rintro ⟨e, he⟩
      simp at he
    · intro hall
      have := hall _ hmem
      rw [this] at hv
      exact absurd hv (by simp)

/-- C9: the `updated` hook of the version table inserts tombstone
`BlockRef` rows exactly for the blocks of the old entry when both entries
are present and the deletion flag flips from false to true; in every other
case it inserts nothing, leaving the block-reference table unchanged. -/
theorem versionTable_updated_frame (old new : Option Version) :
    (∀ oldV newV, old = some oldV → new = some newV → oldV.deleted = false →
      newV.deleted = true →
      VersionTable.updated old new =
        oldV.blocks.map fun vb =>
          { block := vb.hash, version := oldV.uuid, deleted := true })
    ∧ (VersionTable.updated old new ≠ [] →
      ∃ oldV newV, old = some oldV ∧ new = some newV ∧ oldV.deleted = false
        ∧ newV.deleted = true) := by
  constructor
  · rintro oldV newV rfl rfl hod hnd
    simp [VersionTable.updated, hod, hnd]
  · intro hne
    cases old with
    | none => simp [VersionTable.updated] at hne
    | some oldV =>
      cases new with
      | none => simp [VersionTable.updated] at hne
      | some newV =>
        refine ⟨oldV, newV, rfl, rfl, ?_⟩
        by_cases hod : oldV.deleted <;> by_cases hnd : newV.deleted <;>
          simp [VersionTable.updated, hod, hnd] at hne ⊢

/-- Witness for C9: deleting the live version with one block emits exactly
one tombstone row for that block. -/
theorem versionTable_updated_frame_witness :
    VersionTable.updated (some vLive) (some vTomb) =
      [{ block := 5, version := 0, deleted := true }] := by
  have h := (versionTable_updated_frame (some vLive) (some vTomb)).1
    vLive vTomb rfl rfl rfl rfl
  rw [h]
  rfl

theorem put_trace_ordering (nn : List Nat) :
    Ev.removeFile ∈ nn.map Ev.put ++ [Ev.removeFile, Ev.removeQueue]
    ∧ ∀ n ∈ nn, ∃ i j : Nat, i < j
        ∧ (nn.map Ev.put ++ [Ev.removeFile, Ev.removeQueue])[i]?
            = some (Ev.put n)
        ∧ (nn.map Ev.put ++ [Ev.removeFile, Ev.removeQueue])[j]?
            = some Ev.removeFile := by
  constructor
  · simp
  · intro n hn
    obtain ⟨i, hi⟩ := List.mem_iff_getElem?.mp hn
    have hilt : i < nn.length := (List.getElem?_eq_some.mp hi).1
    refine ⟨i, nn.length, hilt, ?_, ?_⟩
    · rw [List.getElem?_append, if_pos (by simpa using hilt),
        List.getElem?_map, hi]
      rfl
    · rw [List.getElem?_append_right (by simp)]
      simp

/-- C1: with the block file present, the local RC zero and at least one
live `BlockRef` remaining, the file is removed only through the deletion
protocol: when more `NeedBlockQuery` RPCs than `(RF − 1) / 2` fail to
return a well-formed reply, `resync_iter` aborts with a retriable error
and nothing is touched; whenever the file removal appears in the trace,
the error budget was respected and every peer that replied
`NeedBlockReply(true)` was pushed the block earlier in the trace; and a
pass that returns Ok did remove the file. -/
theorem resync_iter_deletion_protocol (hashFn : Data → Hash) (now : Nat)
    (env : RpcEnv) (st : BlockState) (h : Hash) (d : Data)
    (hex : st.disk h = some d) (hrc : rcVal st h = 0)
    (hrefs : env.activeRefs = true) :
    (errCount env.needResps > (env.RF - 1) / 2 →
      resync_iter hashFn now env st h = (.error .message, st, []))
    ∧ (Ev.removeFile ∈ (resync_iter hashFn now env st h).2.2 →
      errCount env.needResps ≤ (env.RF - 1) / 2
      ∧ ∀ n ∈ needNodes env, ∃ i j : Nat, i < j
          ∧ (resync_iter hashFn now env st h).2.2[i]? = some (Ev.put n)
          ∧ (resync_iter hashFn now env st h).2.2[j]? = some Ev.removeFile)
    ∧ ((resync_iter hashFn now env st h).1 = .ok () →
      Ev.removeFile ∈ (resync_iter hashFn now env st h).2.2
      ∧ (resync_iter hashFn now env st h).2.1.disk h = none) := by
  have hneed : ((st.rc h).map (fun x => decide (x > 0))).getD false = false := by
    rcases hst : st.rc h with _ | v
    · rfl
    · unfold rcVal at hrc
      rw [hst] at hrc
      simp only [Option.getD_some] at hrc
      simp [hrc]
  have hred : resync_iter hashFn now env st h = deletion_step hashFn now env st h := by
    unfold resync_iter
    rw [hex, hneed, hrefs]
    simp
  rw [hred]
  unfold deletion_step
  by_cases herr : errCount env.needResps > (env.RF - 1) / 2
  · rw [if_pos herr]
    exact ⟨fun _ => rfl, fun hmem => absurd hmem (by simp),
      fun hok => by simp at hok⟩
  · rw [if_neg herr]
    have hle : errCount env.needResps ≤ (env.RF - 1) / 2 := Nat.le_of_not_lt herr
    by_cases hnn : (needNodes env).length > 0
    · rw [if_pos hnn]
      rcases hrb : read_block hashFn now st h with ⟨res, st1⟩
      cases res with
      | error e =>
        refine ⟨fun hq => absurd hq herr, ?_, ?_⟩
        · intro hmem
          simp at hmem
        · intro hok
          simp at hok
      | ok m =>
        rcases hfd : env.putResps.find? isErrResp with _ | fr
        · exact ⟨fun hq => absurd hq herr,
            fun _ => ⟨hle, (put_trace_ordering (needNodes env)).2⟩,
            fun _ => ⟨(put_trace_ordering (needNodes env)).1,
              updateFn_same _ _ _⟩⟩
        · cases fr with
          | error e =>
            refine ⟨fun hq => absurd hq herr, ?_, ?_⟩
            · intro hmem
              simp [List.mem_map] at hmem
            · intro hok
              simp at hok
          | ok m2 =>
            exact ⟨fun hq => absurd hq herr,
              fun _ => ⟨hle, (put_trace_ordering (needNodes env)).2⟩,
              fun _ => ⟨(put_trace_ordering (needNodes env)).1,
                updateFn_same _ _ _⟩⟩
    · rw [if_neg hnn]
      have hempty : needNodes env = [] :=
        List.length_eq_zero.mp (Nat.eq_zero_of_not_pos hnn)
      refine ⟨fun hq => absurd hq herr, ?_, ?_⟩
      · intro _
        refine ⟨hle, ?_⟩
        intro n hn
        rw [hempty] at hn
        cases hn
      · intro _
        exact ⟨by simp, updateFn_same _ _ _⟩

/-- Witness for C1: with replication factor 3 and two failed probes out of
three, the pass aborts with an error and removes nothing. -/
theorem resync_iter_deletion_protocol_witness :
    resync_iter constHash1 0 abortEnv corruptState 0 =
      (.error .message, corruptState, []) :=
  (resync_iter_deletion_protocol constHash1 0 abortEnv corruptState 0 []
    rfl rfl rfl).1 (by decide)

theorem orO_none_right (a : Option Hash) : orO a none = a := by
  cases a <;> rfl

theorem orO_assoc (a b c : Option Hash) :
    orO (orO a b) c = orO a (orO b c) := by
  cases a <;> rfl

theorem lookupVB_nil (o : Nat) : lookupVB [] o = none := rfl

theorem lookupVB_cons (x : VersionBlock) (xs : List VersionBlock) (o : Nat) :
    lookupVB (x :: xs) o =
      if x.offset = o then some x.hash else lookupVB xs o := by
  by_cases hx : x.offset = o
  · rw [if_pos hx]
    unfold lookupVB
    rw [List.find?_cons_of_pos _ (by simpa using hx)]
    rfl
  · rw [if_neg hx]
    unfold lookupVB
    rw [List.find?_cons_of_neg _ (by simpa using hx)]

theorem lookupVB_eq_none (l : List VersionBlock) (o : Nat)
    (hall : ∀ y ∈ l, y.offset ≠ o) : lookupVB l o = none := by
  unfold lookupVB
  rw [List.find?_eq_none.mpr]
  · rfl
  · intro y hy
    simpa using hall y hy

theorem mem_insertVB (l : List VersionBlock) (b y : VersionBlock)
    (hy : y ∈ insertVB l b) : y = b ∨ y ∈ l := by
  induction l with
  | nil =>
    simp [insertVB] at hy
    exact Or.inl hy
  | cons x xs ih =>
    unfold insertVB at hy
    split at hy
    · rw [List.mem_cons] at hy
      rcases hy with hy | hy
      · exact Or.inl hy
      · exact Or.inr hy
    · split at hy
      · exact Or.inr hy
      · rw [List.mem_cons] at hy
        rcases hy with hy | hy
        · exact Or.inr (by rw [hy]; exact List.mem_cons_self x xs)
        · rcases ih hy with h1 | h1
          · exact Or.inl h1
          · exact Or.inr (List.mem_cons_of_mem x h1)

theorem sorted_insertVB (l : List VersionBlock) (b : VersionBlock)
    (hs : sortedVB l) : sortedVB (insertVB l b) := by
  induction l with
  | nil =>
    simp [insertVB, sortedVB]
  | cons x xs ih =>
    obtain ⟨hx, hxs⟩ := List.pairwise_cons.mp hs
    unfold insertVB
    split
    · rename_i hlt
      refine List.pairwise_cons.mpr ⟨?_, List.pairwise_cons.mpr ⟨hx, hxs⟩⟩
      intro y hy
      rw [List.mem_cons] at hy
      rcases hy with hy | hy
      · rw [hy]
        exact hlt
      · exact Nat.lt_trans hlt (hx y hy)
    · split
      · exact List.pairwise_cons.mpr ⟨hx, hxs⟩
      · rename_i hnlt hne
        have hgt : x.offset < b.offset := by omega
        refine List.pairwise_cons.mpr ⟨?_, ih hxs⟩
        intro y hy
        rcases mem_insertVB xs b y hy with h1 | h1
        · rw [h1]
          exact hgt
        · exact hx y h1

theorem lookupVB_insertVB (l : List VersionBlock) (b : VersionBlock) (o : Nat)
    (hs : sortedVB l) :
    lookupVB (insertVB l b) o =
      orO (lookupVB l o) (if o = b.offset then some b.hash else none) := by
  induction l with
  | nil =>
    simp only [insertVB, lookupVB_nil]
    rw [lookupVB_cons, lookupVB_nil]
    by_cases h : b.offset = o
    · rw [if_pos h, if_pos (by omega)]
      rfl
    · rw [if_neg h, if_neg (by omega)]
      rfl
  | cons x xs ih =>
    obtain ⟨hx, hxs⟩ := List.pairwise_cons.mp hs
    unfold insertVB
    by_cases hlt : b.offset < x.offset
    · rw [if_pos hlt, lookupVB_cons]
      by_cases ho : b.offset = o
      · rw [if_pos ho]
        have hnone : lookupVB (x :: xs) o = none := by
          apply lookupVB_eq_none
          intro y hy
          rw [List.mem_cons] at hy
          rcases hy with hy | hy
          · rw [hy]
            omega
          · have := hx y hy
            omega
        rw [hnone, if_pos (by omega)]
        rfl
      · rw [if_neg ho, if_neg (by omega : ¬ o = b.offset), orO_none_right]
    · rw [if_neg hlt]
      by_cases heq : b.offset = x.offset
      · rw [if_pos heq]
        by_cases ho : o = b.offset
        · have hxo : x.offset = o := by omega
          rw [lookupVB_cons, if_pos hxo]
          rfl
        · rw [if_neg ho, orO_none_right]
      · rw [if_neg heq, lookupVB_cons, lookupVB_cons]
        by_cases hxo : x.offset = o
        · rw [if_pos hxo, if_pos hxo]
          rfl
        · rw [if_neg hxo, if_neg hxo]
          exact ih hxs

theorem sorted_foldl (bs : List VersionBlock) :
    ∀ a, sortedVB a → sortedVB (List.foldl insertVB a bs) := by
  induction bs with
  | nil =>
    intro a hs
    simpa using hs
  | cons b bs ih =>
    intro a hs
    rw [List.foldl_cons]
    exact ih _ (sorted_insertVB a b hs)

theorem lookupVB_foldl (bs : List VersionBlock) (o : Nat) :
    ∀ a : List VersionBlock, sortedVB a →
      lookupVB (List.foldl insertVB a bs) o
        = orO (lookupVB a o) (lookupVB bs o) := by
  induction bs with
  | nil =>
    intro a hs
    simp only [List.foldl_nil, lookupVB_nil, orO_none_right]
  | cons b bs ih =>
    intro a hs
    rw [List.foldl_cons, ih (insertVB a b) (sorted_insertVB a b hs),
      lookupVB_insertVB a b o hs, lookupVB_cons, orO_assoc]
    congr 1
    by_cases h : o = b.offset
    · rw [if_pos h, if_pos (by omega)]
      rfl
    · rw [if_neg h, if_neg (by omega)]
      rfl

theorem lookupVB_lt_none (x : VersionBlock) (xs : List VersionBlock) (o : Nat)
    (hs : sortedVB (x :: xs)) (ho : o < x.offset) :
    lookupVB (x :: xs) o = none := by
  obtain ⟨hx, _⟩ := List.pairwise_cons.mp hs
  apply lookupVB_eq_none
  intro z hz
  rw [List.mem_cons] at hz
  rcases hz with hz | hz
  · rw [hz]
    omega
  · have := hx z hz
    omega

theorem sortedVB_ext (l1 : List VersionBlock) :
    ∀ l2, sortedVB l1 → sortedVB l2 →
      (∀ o, lookupVB l1 o = lookupVB l2 o) → l1 = l2 := by
  induction l1 with
  | nil =>
    intro l2 _ hs2 hl
    cases l2 with
    | nil => rfl
    | cons y ys =>
      have h := hl y.offset
      rw [lookupVB_nil, lookupVB_cons, if_pos rfl] at h
      simp at h
  | cons x xs ih =>
    intro l2 hs1 hs2 hl
    cases l2 with
    | nil =>
      have h := hl x.offset
      rw [lookupVB_nil, lookupVB_cons, if_pos rfl] at h
      simp at h
    | cons y ys =>
      obtain ⟨hx1, hxs1⟩ := List.pairwise_cons.mp hs1
      obtain ⟨hy2, hys2⟩ := List.pairwise_cons.mp hs2
      have hoff : x.offset = y.offset := by
        by_contra hne
        rcases Nat.lt_or_ge x.offset y.offset with hlt | hge
        · have h := hl x.offset
          rw [lookupVB_cons, if_pos rfl, lookupVB_lt_none y ys x.offset hs2 hlt] at h
          simp at h
        · have hgt : y.offset < x.offset := by omega
          have h := hl y.offset
          rw [lookupVB_lt_none x xs y.offset hs1 hgt, lookupVB_cons, if_pos rfl] at h
          simp at h
      have hhash : x.hash = y.hash := by
        have h := hl x.offset
        rw [lookupVB_cons, if_pos rfl, lookupVB_cons, if_pos hoff.symm] at h
        exact Option.some.inj h
      have hxy : x = y := by
        cases x
        cases y
        simp_all
      have htails : ∀ o, lookupVB xs o = lookupVB ys o := by
        intro o
        by_cases ho : x.offset = o
        · have h1 : lookupVB xs o = none := by
            apply lookupVB_eq_none
            intro z hz
            have := hx1 z hz
            omega
          have h2 : lookupVB ys o = none := by
            apply lookupVB_eq_none
            intro z hz
            have := hy2 z hz
            omega
          rw [h1, h2]
        · have h := hl o
          rw [lookupVB_cons, if_neg ho, lookupVB_cons, if_neg (by omega)] at h
          exact h
      rw [hxy, ih ys hxs1 hys2 htails]

theorem version_ext (a b : Version) (h1 : a.uuid = b.uuid)
    (h2 : a.deleted = b.deleted) (h3 : a.blocks = b.blocks)
    (h4 : a.bucket = b.bucket) (h5 : a.key = b.key) : a = b := by
  cases a
  cases b
  simp_all

theorem merge_uuid (a b : Version) : (Version.merge a b).uuid = a.uuid := by
  by_cases hb : b.deleted = true <;> by_cases ha : a.deleted = true <;>
    simp [Version.merge, hb, ha]

theorem merge_bucket (a b : Version) :
    (Version.merge a b).bucket = a.bucket := by
  by_cases hb : b.deleted = true <;> by_cases ha : a.deleted = true <;>
    simp [Version.merge, hb, ha]

theorem merge_key (a b : Version) : (Version.merge a b).key = a.key := by
  by_cases hb : b.deleted = true <;> by_cases ha : a.deleted = true <;>
    simp [Version.merge, hb, ha]

theorem merge_deleted (a b : Version) :
    (Version.merge a b).deleted = (a.deleted || b.deleted) := by
  by_cases hb : b.deleted = true <;> by_cases ha : a.deleted = true <;>
    simp [Version.merge, hb, ha]

theorem merge_blocks (a b : Version) :
    (Version.merge a b).blocks =
      if b.deleted then [] else if a.deleted then a.blocks
      else List.foldl insertVB a.blocks b.blocks := by
  by_cases hb : b.deleted = true <;> by_cases ha : a.deleted = true <;>
    simp [Version.merge, hb, ha]

/-- C2 (amended): for entries whose block lists are strictly sorted by
offset (the constructor invariant), `Version::merge` is associative; it is
commutative for pairs that agree on uuid, bucket, key and on the block
hash at every common offset, with tombstones carrying no blocks; it is
idempotent for entries whose tombstones carry no blocks; and merging with
a deleted entry always yields `deleted = true` with an empty block list. -/
theorem version_merge_crdt (a b c : Version)
    (hsa : sortedVB a.blocks) (hsb : sortedVB b.blocks) :
    Version.merge (Version.merge a b) c = Version.merge a (Version.merge b c)
    ∧ (a.uuid = b.uuid → a.bucket = b.bucket → a.key = b.key →
        tombOk a → tombOk b →
        (∀ o h1 h2, lookupVB a.blocks o = some h1 →
          lookupVB b.blocks o = some h2 → h1 = h2) →
        Version.merge a b = Version.merge b a)
    ∧ (tombOk a → Version.merge a a = a)
    ∧ (b.deleted = true →
        (Version.merge a b).deleted = true
        ∧ (Version.merge a b).blocks = []) := by
  refine ⟨?_, ?_, ?_, ?_⟩
  · apply version_ext
    · simp only [merge_uuid]
    · simp only [merge_deleted, Bool.or_assoc]
    · simp only [merge_blocks, merge_deleted]
      by_cases hc : c.deleted = true
      · simp [hc]
      · by_cases hb : b.deleted = true
        · simp [hb, hc]
        · by_cases ha : a.deleted = true
          · simp [ha, hb, hc]
          · simp [ha, hb, hc]
            apply sortedVB_ext
            · exact sorted_foldl c.blocks _ (sorted_foldl b.blocks _ hsa)
            · exact sorted_foldl _ _ hsa
            · intro o
              rw [lookupVB_foldl c.blocks o _ (sorted_foldl b.blocks _ hsa),
                lookupVB_foldl b.blocks o _ hsa,
                lookupVB_foldl (List.foldl insertVB b.blocks c.blocks) o _ hsa,
                lookupVB_foldl c.blocks o _ hsb, orO_assoc]
    · simp only [merge_bucket]
    · simp only [merge_key]
  · intro hu hbk hk ta tb hagree
    apply version_ext
    · simp only [merge_uuid, hu]
    · simp only [merge_deleted, Bool.or_comm]
    · simp only [merge_blocks]
      by_cases hb : b.deleted = true
      · by_cases ha : a.deleted = true
        · simp [ha, hb]
        · simp [ha, hb, tb hb]
      · by_cases ha : a.deleted = true
        · simp [ha, hb, ta ha]
        · simp [ha, hb]
          apply sortedVB_ext
          · exact sorted_foldl _ _ hsa
          · exact sorted_foldl _ _ hsb
          · intro o
            rw [lookupVB_foldl b.blocks o _ hsa,
              lookupVB_foldl a.blocks o _ hsb]
            rcases hA : lookupVB a.blocks o with _ | v1 <;>
              rcases hB : lookupVB b.blocks o with _ | v2 <;>
              first
              | rfl
              | rw [hagree o v1 v2 hA hB]
    · simp only [merge_bucket, hbk]
    · simp only [merge_key, hk]
  · intro ta
    apply version_ext
    · simp only [merge_uuid]
    · simp only [merge_deleted, Bool.or_self]
    · simp only [merge_blocks]
      by_cases ha : a.deleted = true
      · simp [ha, ta ha]
      · simp [ha]
        apply sortedVB_ext
        · exact sorted_foldl _ _ hsa
        · exact hsa
        · intro o
          rw [lookupVB_foldl a.blocks o _ hsa]
          rcases hA : lookupVB a.blocks o with _ | v1
          · rfl
          · rfl
    · simp only [merge_bucket]
    · simp only [merge_key]
  · intro hb
    rw [merge_deleted, merge_blocks, hb]
    simp

/-- Witness for C2: the live version with one block and the matching
tombstone of the same uuid merge the same way in both orders. -/
theorem version_merge_crdt_witness :
    Version.merge vA vTomb = Version.merge vTomb vA :=
  (version_merge_crdt vA vTomb vA
      (by simp [vA, sortedVB]) (by simp [vTomb, sortedVB])).2.1
    rfl rfl rfl
    (by intro h; simp [vA] at h)
    (fun _ => rfl)
    (by
      intro o h1 h2 _ hb2
      simp [vTomb, lookupVB] at hb2)

/-- Counterexample to C2 as stated: two entries with the same uuid (and
even the same bucket and key) that disagree on the hash at offset 0 do
not merge commutatively — each order keeps its own hash. -/
theorem version_merge_comm_cex :
    vA.uuid = vB.uuid ∧ Version.merge vA vB ≠ Version.merge vB vA := by
  refine ⟨rfl, ?_⟩
  intro hEq
  have hblocks : (Version.merge vA vB).blocks = (Version.merge vB vA).blocks := by
    rw [hEq]
  simp [Version.merge, vA, vB, insertVB] at hblocks

end Garage
